import Mathlib

/-!
Verification of the spike extraction pipeline in
`src/load_intan_rhd_format_spike_extraction.py`, function
`extract_analyze_and_plot_spikes` (lines 69-117).

Samples are modelled as exact rationals.  The scipy and sklearn calls made by
the source are embedded as follows:

* `scipy.signal.find_peaks(signal, height=(min_height, max_height))` is
  embedded from scipy's documented algorithm (`_local_maxima_1d` followed by
  the inclusive height filter): a scan that records the midpoint of every
  maximal plateau whose neighbours on both sides are strictly lower, skipping
  the first and last sample, and then keeps the peaks whose height lies in the
  closed band.
* `sklearn.decomposition.PCA(...).fit_transform` performs an input-validation
  step (embedded in `pcaCheck`) and then an SVD whose floating-point internals
  are external library code; the explained-variance-ratio computation is
  modelled from the spec in `evrOfSpectrum`.

Python-specific numeric conversions (`int()` truncation, list slicing with
clamping and negative-index wraparound, `np.linspace`, `np.max`) are embedded
one-to-one in `pyInt`, `pySlice`, `linspace` and `npMax`.
-/

namespace SpikePipeline

/-- Python's `int()` conversion applied to a real number: truncation toward
zero.  Used by the source for `pre_samples` and `post_samples` (lines 83-84). -/
def pyInt (q : ℚ) : ℤ := if 0 ≤ q then ⌊q⌋ else -⌊-q⌋

/-- Conversion of a time in milliseconds to a sample count, exactly as in the
source: `int((t / 1000) * sample_rate)`. -/
def pySamples (t rate : ℚ) : ℤ := pyInt (t / 1000 * rate)

/-- The value of `np.max` on a one-dimensional array; `none` models the
`ValueError` numpy raises on an empty array (line 89). -/
def npMax : List ℚ → Option ℚ
  | [] => none
  | a :: as => some (as.foldl max a)

/-- Python slicing `x[a:b]` (step 1) on a list: negative indices count from
the end, then both bounds are clamped to `[0, len(x)]`. -/
def pySlice (x : List ℚ) (a b : ℤ) : List ℚ :=
  let n : ℤ := x.length
  let a' := min (max 0 (if a < 0 then a + n else a)) n
  let b' := min (max 0 (if b < 0 then b + n else b)) n
  (x.drop a'.toNat).take (b'.toNat - a'.toNat)

/-- Scan of scipy's `_local_maxima_1d`: starting inside a candidate plateau at
value `v`, advance `j` while it stays below `iMax` and the sample equals `v`.
`fuel` makes the recursion structural; every use supplies at least
`iMax - j`, so the scan always stops at scipy's stopping index. -/
def plateauEnd (x : List ℚ) (v : ℚ) (iMax : ℕ) : ℕ → ℕ → ℕ
  | j, 0 => j
  | j, fuel + 1 =>
    if j < iMax ∧ x.getD j 0 = v then plateauEnd x v iMax (j + 1) fuel else j

/-- Main loop of scipy's `_local_maxima_1d`: for `i` from `1` while
`i < i_max = len(x) - 1`, if the signal strictly rises into `i`, scan the
plateau at `x[i]`; if the sample after the plateau is strictly lower, record
the plateau midpoint `(left_edge + right_edge) / 2` and resume after the
plateau.  `fuel` makes the recursion structural; every use supplies at least
`iMax - i`. -/
def lmLoop (x : List ℚ) (iMax : ℕ) : ℕ → ℕ → List ℕ
  | _, 0 => []
  | i, fuel + 1 =>
    if i < iMax then
      if x.getD (i - 1) 0 < x.getD i 0 then
        let iAhead := plateauEnd x (x.getD i 0) iMax (i + 1) (fuel + 1)
        if x.getD iAhead 0 < x.getD i 0 then
          (i + (iAhead - 1)) / 2 :: lmLoop x iMax (iAhead + 1) fuel
        else
          lmLoop x iMax (i + 1) fuel
      else
        lmLoop x iMax (i + 1) fuel
    else []

/-- All local maxima of `x` in scipy's sense: midpoints of maximal plateaus
with strictly lower neighbours, scanned over indices `1 .. len(x) - 2`. -/
def local_maxima_1d (x : List ℚ) : List ℕ :=
  lmLoop x (x.length - 1) 1 x.length

/-- Embedding of `scipy.signal.find_peaks(x, height=(minH, maxH))` as called
on line 98: local maxima whose height lies in the closed band
`[minH, maxH]`. -/
def find_peaks (x : List ℚ) (minH maxH : ℚ) : List ℕ :=
  (local_maxima_1d x).filter fun s =>
    decide (minH ≤ x.getD s 0 ∧ x.getD s 0 ≤ maxH)

/-- Error outcomes of the pipeline.  `missingKeys` models the early return on
line 73 (absent `amplifier_data` or `t_amplifier`), `missingSampleRate` the
`ValueError` on line 80, `invalidInput` the `ValueError` of `np.max` on an
empty signal (line 89), `badLinspaceNum` the `ValueError` of `np.linspace`
given a negative sample count (line 103), and `insufficientData` the
`ValueError` of sklearn's PCA input validation (lines 113-114). -/
inductive PipeErr
  | missingKeys
  | missingSampleRate
  | invalidInput
  | badLinspaceNum
  | insufficientData
deriving DecidableEq

/-- The spec's `MissingPrecondition` class groups the two abort paths that
fire before any detection stage: absent upstream keys and a null sample
rate. -/
def PipeErr.isMissingPrecondition : PipeErr → Bool
  | .missingKeys => true
  | .missingSampleRate => true
  | _ => false

/-- Output of the Threshold Estimator (lines 89-95): the global maximum, the
reported threshold, and the fixed detection band. -/
structure ThreshOut where
  max_amplitude : ℚ
  threshold : ℚ
  min_height : ℚ
  max_height : ℚ
deriving DecidableEq

/-- The Threshold Estimator (lines 89-95): `max_amplitude = np.max(signal)`,
`threshold = threshold_ratio * max_amplitude` (the ratio argument is named
`frac` here), `min_height = (1/3) * max_amplitude`,
`max_height = (1/2) * max_amplitude`. -/
def thresholdEstimator (signal : List ℚ) (frac : ℚ) : Except PipeErr ThreshOut :=
  match npMax signal with
  | none => .error .invalidInput
  | some m => .ok ⟨m, frac * m, (1 / 3) * m, (1 / 2) * m⟩

/-- Embedding of `np.linspace(a, b, num)` (line 103): `none` models the
`ValueError` on a negative sample count; otherwise `num` evenly spaced points
from `a` to `b` inclusive (a single point is placed at `a`). -/
def linspace (a b : ℚ) (num : ℤ) : Option (List ℚ) :=
  if num < 0 then none
  else some ((List.range num.toNat).map fun i =>
    if num = 1 then a else a + (b - a) * i / ((num - 1 : ℤ) : ℚ))

/-- The Waveform Extractor loop (lines 102-108): for each spike `s`, take
`start = max(0, s - pre)` and `stop = min(len(signal), s + post)` and keep
`signal[start:stop]` as a row exactly when `stop - start == pre + post`. -/
def extractWaveforms (signal : List ℚ) (spikes : List ℕ) (pre post : ℤ) :
    List (List ℚ) :=
  spikes.filterMap fun (s : ℕ) =>
    let start := max 0 ((s : ℤ) - pre)
    let stop := min ((signal.length : ℤ)) ((s : ℤ) + post)
    if stop - start = pre + post then some (pySlice signal start stop) else none

/-- Input validation of `sklearn.decomposition.PCA(n_components).fit_transform`
(lines 113-114): with `R` waveform rows and `W` columns, the call raises
unless `R ≥ 1` and `n_components ≤ min(R, W)`; both failure shapes are the
spec's `InsufficientData`.  The SVD performed after validation is external
library code and is not embedded. -/
def pcaCheck (X : List (List ℚ)) (k : ℕ) : Except PipeErr Unit :=
  if X.length = 0 ∨ min X.length (X.headD []).length < k then
    .error .insufficientData
  else .ok ()

/-- Modelled from the spec: the numerical core of the Feature Reducer
(sklearn's SVD) is external library code not present in `src/`.  Per spec
section 4.4 the reducer reports, for each of the leading `n_components`
directions, the fraction of total variance it explains; sklearn computes this
as `sigma_i ^ 2 / sum_j sigma_j ^ 2` from the full descending singular
spectrum of the centered waveform matrix.  This definition embeds that
computation as a function of the spectrum. -/
def evrOfSpectrum (S : List ℚ) (k : ℕ) : List ℚ :=
  let total := (S.map fun s => s ^ 2).sum
  (S.take k).map fun s => s ^ 2 / total

/-- The mapping produced by the upstream `.rhd` reader, restricted to the
keys the pipeline reads.  `none` models an absent key or a `None` value. -/
structure RhdResult where
  amplifier_data : Option (List (List ℚ))
  t_amplifier : Option (List ℚ)
  sample_rate : Option ℚ

/-- Successful pipeline output.  The source returns
`signal, time, aligned_time, spike_waveforms, spikes, spike_features, pca`;
the feature matrix itself is the output of sklearn's SVD and is not embedded
(claims about it are stated through its input, `spike_waveforms`, and the
spec-modelled `evrOfSpectrum`).  The threshold values printed on lines 91 and
99 are carried as fields so that claims can observe them. -/
structure PipeOut where
  signal : List ℚ
  time : List ℚ
  aligned_time : List ℚ
  spike_waveforms : List (List ℚ)
  spikes : List ℕ
  max_amplitude : ℚ
  threshold : ℚ
  min_height : ℚ
  max_height : ℚ
deriving DecidableEq

/-- Embedding of `extract_analyze_and_plot_spikes` (lines 69-117), with the
threshold ratio argument named `frac`.  Stages in source order: key check
(71-73), signal/time/sample-rate extraction (76-80), sample-count conversion
(83-84), threshold estimation (89-95), peak detection (98), aligned time axis
(103), waveform extraction (104-110), PCA validation (113-114). -/
def extract_analyze_and_plot_spikes (result : RhdResult) (channel_index : ℕ)
    (frac pre_time post_time : ℚ) (n_components : ℕ) : Except PipeErr PipeOut :=
  match result.amplifier_data, result.t_amplifier with
  | some amp, some t =>
    let signal := amp.getD channel_index []
    match result.sample_rate with
    | none => .error .missingSampleRate
    | some rate =>
      let pre_samples := pySamples pre_time rate
      let post_samples := pySamples post_time rate
      match thresholdEstimator signal frac with
      | .error e => .error e
      | .ok th =>
        let spikes := find_peaks signal th.min_height th.max_height
        match linspace (-pre_time) post_time (pre_samples + post_samples) with
        | none => .error .badLinspaceNum
        | some aligned_time =>
          let spike_waveforms := extractWaveforms signal spikes pre_samples post_samples
          match pcaCheck spike_waveforms n_components with
          | .error e => .error e
          | .ok _ =>
            .ok ⟨signal, t, aligned_time, spike_waveforms, spikes,
                 th.max_amplitude, th.threshold, th.min_height, th.max_height⟩
  | _, _ => .error .missingKeys

/-- View of a pipeline output without the reported threshold: everything the
detection and feature stages produce. -/
def detectionView (o : PipeOut) :
    List ℚ × List ℚ × List ℚ × List (List ℚ) × List ℕ × ℚ × ℚ × ℚ :=
  (o.signal, o.time, o.aligned_time, o.spike_waveforms, o.spikes,
   o.max_amplitude, o.min_height, o.max_height)

/-- View of a pipeline output without the pass-through time vector. -/
def dropTime (o : PipeOut) :
    List ℚ × List ℚ × List (List ℚ) × List ℕ × ℚ × ℚ × ℚ × ℚ :=
  (o.signal, o.aligned_time, o.spike_waveforms, o.spikes,
   o.max_amplitude, o.threshold, o.min_height, o.max_height)

theorem le_foldl_max (a : ℚ) (l : List ℚ) : a ≤ l.foldl max a := by
  induction l generalizing a with
  | nil => exact le_refl a
  | cons b bs ih => exact le_trans (le_max_left a b) (ih (max a b))

theorem mem_le_foldl_max (a v : ℚ) (l : List ℚ) (hv : v ∈ l) :
    v ≤ l.foldl max a := by
  induction l generalizing a with
  | nil => cases hv
  | cons b bs ih =>
    rcases List.mem_cons.mp hv with rfl | hv
    · exact le_trans (le_max_right a v) (le_foldl_max (max a v) bs)
    · exact ih (max a b) hv

theorem foldl_max_mem (a : ℚ) (l : List ℚ) :
    l.foldl max a = a ∨ l.foldl max a ∈ l := by
  induction l generalizing a with
  | nil => exact Or.inl rfl
  | cons b bs ih =>
    rcases ih (max a b) with h | h
    · rcases max_choice a b with hc | hc
      · exact Or.inl (by rw [List.foldl_cons, h, hc])
      · exact Or.inr (by rw [List.foldl_cons, h, hc]; exact List.mem_cons_self b bs)
    · exact Or.inr (List.mem_cons_of_mem b h)

/-- C1: on a non-empty signal the Threshold Estimator returns
`max_amplitude = max(signal)`, the reported `threshold = frac * max_amplitude`
where `frac` is the threshold ratio, and the fixed band
`min_height = max_amplitude / 3`, `max_height = max_amplitude / 2`; the band
does not depend on the ratio argument. -/
theorem thresholdEstimator_spec (signal : List ℚ) (frac : ℚ) (h : signal ≠ []) :
    ∃ out, thresholdEstimator signal frac = .ok out ∧
      out.max_amplitude ∈ signal ∧
      (∀ v ∈ signal, v ≤ out.max_amplitude) ∧
      out.threshold = frac * out.max_amplitude ∧
      out.min_height = out.max_amplitude / 3 ∧
      out.max_height = out.max_amplitude / 2 ∧
      ∀ frac2, ∃ out2, thresholdEstimator signal frac2 = .ok out2 ∧
        out2.min_height = out.min_height ∧ out2.max_height = out.max_height := by
  match signal with
  | [] => exact absurd rfl h
  | a :: as =>
    refine ⟨⟨as.foldl max a, frac * (as.foldl max a), (1/3) * (as.foldl max a),
      (1/2) * (as.foldl max a)⟩, rfl, ?_, ?_, rfl, by ring, by ring, ?_⟩
    · rcases foldl_max_mem a as with h1 | h1
      · rw [h1]; exact List.mem_cons_self a as
      · exact List.mem_cons_of_mem a h1
    · intro v hv
      rcases List.mem_cons.mp hv with rfl | hv
      · exact le_foldl_max v as
      · exact mem_le_foldl_max a v as hv
    · intro frac2
      exact ⟨_, rfl, rfl, rfl⟩

/-- Witness for `thresholdEstimator_spec` at the signal `[1, 3]` with ratio
`1/2`. -/
theorem thresholdEstimator_spec_witness :
    ([1, 3] : List ℚ) ≠ [] ∧
    ∃ out, thresholdEstimator [1, 3] (1/2) = .ok out ∧
      out.max_amplitude ∈ ([1, 3] : List ℚ) ∧
      (∀ v ∈ ([1, 3] : List ℚ), v ≤ out.max_amplitude) ∧
      out.threshold = (1/2) * out.max_amplitude ∧
      out.min_height = out.max_amplitude / 3 ∧
      out.max_height = out.max_amplitude / 2 ∧
      ∀ frac2, ∃ out2, thresholdEstimator [1, 3] frac2 = .ok out2 ∧
        out2.min_height = out.min_height ∧ out2.max_height = out.max_height :=
  ⟨by decide, thresholdEstimator_spec [1, 3] (1/2) (by decide)⟩

/-- C6: the Feature Reducer fails with the spec's `InsufficientData` error
whenever the waveform matrix has no rows or `n_components` exceeds
`min(R, W)`; the embedding is a pure function, so no shared state exists to
be corrupted by the failure. -/
theorem pcaCheck_insufficient (X : List (List ℚ)) (k : ℕ)
    (h : X.length = 0 ∨ min X.length (X.headD []).length < k) :
    pcaCheck X k = .error .insufficientData := by
  rw [pcaCheck, if_pos h]

/-- Witness for `pcaCheck_insufficient`: requesting 2 components from a
single accepted waveform row fails (the spec's Scenario C). -/
theorem pcaCheck_insufficient_witness :
    (([[0, 5]] : List (List ℚ)).length = 0 ∨
      min ([[0, 5]] : List (List ℚ)).length (([[0, 5]] : List (List ℚ)).headD []).length < 2) ∧
    pcaCheck [[0, 5]] 2 = .error .insufficientData :=
  ⟨by decide, pcaCheck_insufficient [[0, 5]] 2 (by decide)⟩

/-- C8: an empty signal makes the Threshold Estimator fail with the spec's
`InvalidInput` error, and the whole pipeline invocation returns that error
(no band is computed and no later stage contributes to the result). -/
theorem empty_signal_invalid_input (amp : List (List ℚ)) (t : List ℚ)
    (rate : ℚ) (channel_index : ℕ) (frac pre_time post_time : ℚ)
    (n_components : ℕ) (h : amp.getD channel_index [] = []) :
    thresholdEstimator [] frac = .error .invalidInput ∧
    extract_analyze_and_plot_spikes ⟨some amp, some t, some rate⟩ channel_index
      frac pre_time post_time n_components = .error .invalidInput := by
  constructor
  · rfl
  · simp only [extract_analyze_and_plot_spikes, h]
    rfl

/-- Witness for `empty_signal_invalid_input`: channel 0 of a recording with a
single empty channel. -/
theorem empty_signal_invalid_input_witness :
    ([[]] : List (List ℚ)).getD 0 [] = [] ∧
    (thresholdEstimator [] 1 = .error .invalidInput ∧
    extract_analyze_and_plot_spikes ⟨some [[]], some [0], some 1⟩ 0
      1 1 2 2 = .error .invalidInput) :=
  ⟨rfl, empty_signal_invalid_input [[]] [0] 1 0 1 1 2 2 rfl⟩

/-- C9: a missing amplifier-data key, a missing time-vector key, or an
absent/null sample rate makes the pipeline return one of the spec's
`MissingPrecondition` errors; no detection output is produced for that
invocation. -/
theorem missing_inputs_abort (result : RhdResult) (channel_index : ℕ)
    (frac pre_time post_time : ℚ) (n_components : ℕ)
    (h : result.amplifier_data = none ∨ result.t_amplifier = none ∨
      result.sample_rate = none) :
    ∃ e, extract_analyze_and_plot_spikes result channel_index frac pre_time
      post_time n_components = .error e ∧ e.isMissingPrecondition = true := by
  obtain ⟨amp, t, rate⟩ := result
  cases amp with
  | none => exact ⟨.missingKeys, rfl, rfl⟩
  | some amp =>
    cases t with
    | none => exact ⟨.missingKeys, rfl, rfl⟩
    | some t =>
      cases rate with
      | none => exact ⟨.missingSampleRate, rfl, rfl⟩
      | some rate => simp at h

/-- Witness for `missing_inputs_abort`: data present but the sample rate is
null (the spec's Scenario D). -/
theorem missing_inputs_abort_witness :
    ((RhdResult.mk (some [[1]]) (some [0]) none).amplifier_data = none ∨
      (RhdResult.mk (some [[1]]) (some [0]) none).t_amplifier = none ∨
      (RhdResult.mk (some [[1]]) (some [0]) none).sample_rate = none) ∧
    ∃ e, extract_analyze_and_plot_spikes ⟨some [[1]], some [0], none⟩ 0 1 1 2 2
        = .error e ∧ e.isMissingPrecondition = true :=
  ⟨Or.inr (Or.inr rfl),
    missing_inputs_abort ⟨some [[1]], some [0], none⟩ 0 1 1 2 2
      (Or.inr (Or.inr rfl))⟩


theorem map_div_sum (l : List ℚ) (g : ℚ → ℚ) (c : ℚ) :
    (l.map fun a => g a / c).sum = (l.map g).sum / c := by
  induction l with
  | nil => simp
  | cons b bs ih => simp only [List.map_cons, List.sum_cons, ih, div_add_div_same]

/-- C7: the explained variance ratios computed from a descending nonnegative
singular spectrum of length at least `n_components` have exactly
`n_components` entries, all in `[0, 1]`, summing to at most `1`, and
non-increasing in index. -/
theorem evrOfSpectrum_spec (S : List ℚ) (k : ℕ)
    (hsort : List.Pairwise (· ≥ ·) S) (hpos : ∀ s ∈ S, 0 ≤ s)
    (hk : k ≤ S.length) :
    (evrOfSpectrum S k).length = k ∧
    (∀ r ∈ evrOfSpectrum S k, 0 ≤ r ∧ r ≤ 1) ∧
    (evrOfSpectrum S k).sum ≤ 1 ∧
    List.Pairwise (· ≥ ·) (evrOfSpectrum S k) := by
  have hT0 : 0 ≤ (S.map fun s => s ^ 2).sum := by
    apply List.sum_nonneg
    intro x hx
    obtain ⟨s, _, rfl⟩ := List.mem_map.mp hx
    positivity
  have hsq_le : ∀ s ∈ S, s ^ 2 ≤ (S.map fun s => s ^ 2).sum := by
    intro s hs
    refine List.single_le_sum ?_ _ (List.mem_map_of_mem _ hs)
    intro x hx
    obtain ⟨u, _, rfl⟩ := List.mem_map.mp hx
    positivity
  have htake : ((S.take k).map fun s => s ^ 2).sum ≤ (S.map fun s => s ^ 2).sum := by
    conv_rhs => rw [← List.take_append_drop k S]
    rw [List.map_append, List.sum_append]
    have : 0 ≤ ((S.drop k).map fun s => s ^ 2).sum := by
      apply List.sum_nonneg
      intro x hx
      obtain ⟨u, _, rfl⟩ := List.mem_map.mp hx
      positivity
    linarith
  refine ⟨?_, ?_, ?_, ?_⟩
  · simp [evrOfSpectrum, hk]
  · intro r hr
    simp only [evrOfSpectrum] at hr
    obtain ⟨s, hs, rfl⟩ := List.mem_map.mp hr
    have hsS : s ∈ S := (List.take_sublist k S).subset hs
    refine ⟨by positivity, ?_⟩
    rcases eq_or_lt_of_le hT0 with h0 | h0
    · rw [← h0, div_zero]
      norm_num
    · exact div_le_one_of_le₀ (hsq_le s hsS) (le_of_lt h0)
  · simp only [evrOfSpectrum]
    rw [map_div_sum]
    rcases eq_or_lt_of_le hT0 with h0 | h0
    · rw [← h0, div_zero]
      norm_num
    · rw [div_le_one h0]
      exact htake
  · simp only [evrOfSpectrum]
    rw [List.pairwise_map]
    have hsub : List.Pairwise (· ≥ ·) (S.take k) :=
      hsort.sublist (List.take_sublist k S)
    refine hsub.imp_of_mem ?_
    intro a b ha hb hab
    have ha0 : 0 ≤ a := hpos a ((List.take_sublist k S).subset ha)
    have hb0 : 0 ≤ b := hpos b ((List.take_sublist k S).subset hb)
    have hsq : b ^ 2 ≤ a ^ 2 := pow_le_pow_left₀ hb0 hab 2
    rcases eq_or_lt_of_le hT0 with h0 | h0
    · rw [← h0, div_zero, div_zero]
    · exact (div_le_div_iff_of_pos_right h0).mpr hsq

/-- Witness for `evrOfSpectrum_spec` at the spectrum `[2, 1, 0]` with two
components. -/
theorem evrOfSpectrum_spec_witness :
    List.Pairwise (· ≥ ·) ([2, 1, 0] : List ℚ) ∧ (∀ s ∈ ([2, 1, 0] : List ℚ), 0 ≤ s) ∧
    2 ≤ ([2, 1, 0] : List ℚ).length ∧
    ((evrOfSpectrum [2, 1, 0] 2).length = 2 ∧
    (∀ r ∈ evrOfSpectrum [2, 1, 0] 2, 0 ≤ r ∧ r ≤ 1) ∧
    (evrOfSpectrum [2, 1, 0] 2).sum ≤ 1 ∧
    List.Pairwise (· ≥ ·) (evrOfSpectrum [2, 1, 0] 2)) :=
  ⟨by decide, by decide, by decide,
    evrOfSpectrum_spec [2, 1, 0] 2 (by decide) (by decide) (by decide)⟩

theorem plateauEnd_ge (x : List ℚ) (v : ℚ) (iMax : ℕ) :
    ∀ (fuel j : ℕ), j ≤ plateauEnd x v iMax j fuel := by
  intro fuel
  induction fuel with
  | zero => intro j; simp [plateauEnd]
  | succ f ih =>
    intro j
    simp only [plateauEnd]
    split
    · exact le_trans (Nat.le_succ j) (ih (j + 1))
    · exact Nat.le_refl j

theorem plateauEnd_le (x : List ℚ) (v : ℚ) (iMax : ℕ) :
    ∀ (fuel j : ℕ), j ≤ iMax → plateauEnd x v iMax j fuel ≤ iMax := by
  intro fuel
  induction fuel with
  | zero => intro j hj; simpa [plateauEnd] using hj
  | succ f ih =>
    intro j hj
    simp only [plateauEnd]
    split
    · next h => exact ih (j + 1) h.1
    · exact hj

theorem plateauEnd_plateau (x : List ℚ) (v : ℚ) (iMax : ℕ) :
    ∀ (fuel j k : ℕ), j ≤ k → k < plateauEnd x v iMax j fuel →
      x.getD k 0 = v := by
  intro fuel
  induction fuel with
  | zero =>
    intro j k hjk hk
    simp only [plateauEnd] at hk
    omega
  | succ f ih =>
    intro j k hjk hk
    simp only [plateauEnd] at hk
    split at hk
    · next h =>
      rcases Nat.eq_or_lt_of_le hjk with rfl | hlt
      · exact h.2
      · exact ih (j + 1) k hlt hk
    · omega

theorem lmLoop_lb (x : List ℚ) (iMax : ℕ) :
    ∀ (fuel i s : ℕ), s ∈ lmLoop x iMax i fuel → i ≤ s := by
  intro fuel
  induction fuel with
  | zero => intro i s hs; simp [lmLoop] at hs
  | succ f ih =>
    intro i s hs
    simp only [lmLoop] at hs
    split at hs
    · split at hs
      · split at hs
        · next h1 h2 h3 =>
          have hge := plateauEnd_ge x (x.getD i 0) iMax (f + 1) (i + 1)
          rcases List.mem_cons.mp hs with rfl | hs
          · omega
          · have := ih _ s hs
            omega
        · have := ih _ s hs
          omega
      · have := ih _ s hs
        omega
    · simp at hs

theorem lmLoop_mem (x : List ℚ) (iMax : ℕ) :
    ∀ (fuel i : ℕ), 1 ≤ i → iMax ≤ i + fuel → ∀ s ∈ lmLoop x iMax i fuel,
      ∃ l r, 1 ≤ l ∧ l ≤ s ∧ s ≤ r ∧ r + 1 ≤ iMax ∧ s = (l + r) / 2 ∧
        (∀ j, l ≤ j → j ≤ r → x.getD j 0 = x.getD l 0) ∧
        x.getD (l - 1) 0 < x.getD l 0 ∧ x.getD (r + 1) 0 < x.getD l 0 := by
  intro fuel
  induction fuel with
  | zero => intro i _ _ s hs; simp [lmLoop] at hs
  | succ f ih =>
    intro i hi hfuel s hs
    simp only [lmLoop] at hs
    split at hs
    · next h1 =>
      split at hs
      · next h2 =>
        split at hs
        · next h3 =>
          have hge := plateauEnd_ge x (x.getD i 0) iMax (f + 1) (i + 1)
          have hle := plateauEnd_le x (x.getD i 0) iMax (f + 1) (i + 1) h1
          rcases List.mem_cons.mp hs with rfl | hs
          · refine ⟨i, plateauEnd x (x.getD i 0) iMax (i + 1) (f + 1) - 1,
              hi, by omega, by omega, by omega, by omega, ?_, h2, ?_⟩
            · intro j hj1 hj2
              rcases Nat.eq_or_lt_of_le hj1 with rfl | hlt
              · rfl
              · exact plateauEnd_plateau x (x.getD i 0) iMax (f + 1) (i + 1) j hlt (by omega)
            · have he : plateauEnd x (x.getD i 0) iMax (i + 1) (f + 1) - 1 + 1
                  = plateauEnd x (x.getD i 0) iMax (i + 1) (f + 1) := by omega
              rw [he]
              exact h3
          · obtain ⟨l, r, hl⟩ := ih _ (by omega) (by omega) s hs
            exact ⟨l, r, hl⟩
        · obtain ⟨l, r, hl⟩ := ih _ (by omega) (by omega) s hs
          exact ⟨l, r, hl⟩
      · obtain ⟨l, r, hl⟩ := ih _ (by omega) (by omega) s hs
        exact ⟨l, r, hl⟩
    · simp at hs

theorem lmLoop_sorted (x : List ℚ) (iMax : ℕ) :
    ∀ (fuel i : ℕ), List.Pairwise (· < ·) (lmLoop x iMax i fuel) := by
  intro fuel
  induction fuel with
  | zero => intro i; simp [lmLoop]
  | succ f ih =>
    intro i
    simp only [lmLoop]
    split
    · split
      · split
        · refine List.Pairwise.cons ?_ (ih _)
          intro b hb
          have hbe := lmLoop_lb x iMax f _ b hb
          have hge := plateauEnd_ge x (x.getD i 0) iMax (f + 1) (i + 1)
          omega
        · exact ih _
      · exact ih _
    · simp

/-- C3 (amended): every index returned by the Peak Detector lies strictly
inside the signal (never index `0` or `N-1`), has its height inside the
detection band, and is the midpoint of a maximal plateau into which the
signal strictly rises and out of which it strictly falls; when that plateau
has width one this is exactly a strict local maximum, but for a wider
plateau the immediate neighbours equal the peak sample.  The returned
indices are strictly ascending, hence duplicate-free. -/
theorem find_peaks_spec (x : List ℚ) (minH maxH : ℚ) :
    (∀ s ∈ find_peaks x minH maxH,
      0 < s ∧ s + 1 < x.length ∧
      minH ≤ x.getD s 0 ∧ x.getD s 0 ≤ maxH ∧
      ∃ l r, 0 < l ∧ l ≤ s ∧ s ≤ r ∧ r + 2 ≤ x.length ∧ s = (l + r) / 2 ∧
        (∀ j, l ≤ j → j ≤ r → x.getD j 0 = x.getD s 0) ∧
        x.getD (l - 1) 0 < x.getD s 0 ∧ x.getD (r + 1) 0 < x.getD s 0) ∧
    List.Pairwise (· < ·) (find_peaks x minH maxH) := by
  constructor
  · intro s hs
    obtain ⟨hmem, hband⟩ := List.mem_filter.mp hs
    have hband' := of_decide_eq_true hband
    obtain ⟨l, r, h1, h2, h3, h4, h5, h6, h7, h8⟩ :=
      lmLoop_mem x (x.length - 1) x.length 1 (le_refl 1) (by omega) s hmem
    have hsl : x.getD s 0 = x.getD l 0 := h6 s h2 h3
    refine ⟨by omega, by omega, hband'.1, hband'.2,
      l, r, by omega, h2, h3, by omega, h5, ?_, ?_, ?_⟩
    · intro j hj1 hj2
      rw [hsl]
      exact h6 j hj1 hj2
    · rw [hsl]; exact h7
    · rw [hsl]; exact h8
  · exact List.Pairwise.filter _ (lmLoop_sorted x (x.length - 1) x.length 1)

/-- Witness for `find_peaks_spec` at the plateau signal `[0, 5, 5, 0, 12]`
with the band `[4, 6]` that the Threshold Estimator derives from its maximum
`12`. -/
theorem find_peaks_spec_witness :
    (∀ s ∈ find_peaks [0, 5, 5, 0, 12] 4 6,
      0 < s ∧ s + 1 < ([0, 5, 5, 0, 12] : List ℚ).length ∧
      4 ≤ ([0, 5, 5, 0, 12] : List ℚ).getD s 0 ∧
      ([0, 5, 5, 0, 12] : List ℚ).getD s 0 ≤ 6 ∧
      ∃ l r, 0 < l ∧ l ≤ s ∧ s ≤ r ∧ r + 2 ≤ ([0, 5, 5, 0, 12] : List ℚ).length ∧
        s = (l + r) / 2 ∧
        (∀ j, l ≤ j → j ≤ r →
          ([0, 5, 5, 0, 12] : List ℚ).getD j 0 = ([0, 5, 5, 0, 12] : List ℚ).getD s 0) ∧
        ([0, 5, 5, 0, 12] : List ℚ).getD (l - 1) 0 < ([0, 5, 5, 0, 12] : List ℚ).getD s 0 ∧
        ([0, 5, 5, 0, 12] : List ℚ).getD (r + 1) 0 < ([0, 5, 5, 0, 12] : List ℚ).getD s 0) ∧
    List.Pairwise (· < ·) (find_peaks [0, 5, 5, 0, 12] 4 6) :=
  find_peaks_spec [0, 5, 5, 0, 12] 4 6

/-- Counterexample to C3 as stated: on the signal `[0, 5, 5, 0, 12]` the
Threshold Estimator derives the band `[4, 6]`, and `find_peaks` (scipy
plateau semantics) returns the midpoint `1` of the flat plateau `5, 5`, for
which `Signal[s] > Signal[s+1]` fails because `Signal[1] = Signal[2] = 5`. -/
theorem find_peaks_plateau_counterexample :
    thresholdEstimator [0, 5, 5, 0, 12] 1 = .ok ⟨12, 12, 4, 6⟩ ∧
    find_peaks [0, 5, 5, 0, 12] 4 6 = [1] ∧
    ¬ (([0, 5, 5, 0, 12] : List ℚ).getD 1 0 > ([0, 5, 5, 0, 12] : List ℚ).getD 2 0) := by
  refine ⟨?_, by decide, by decide⟩
  have h : npMax [0, 5, 5, 0, 12] = some 12 := by decide
  simp only [thresholdEstimator, h]
  norm_num

theorem window_accept (N s : ℕ) (pre post : ℤ) :
    (min (N : ℤ) ((s : ℤ) + post) - max 0 ((s : ℤ) - pre) = pre + post) ↔
      (pre ≤ (s : ℤ) ∧ (s : ℤ) + post ≤ N) := by
  simp only [min_def, max_def]
  split_ifs <;> omega

theorem pySlice_nonneg (x : List ℚ) (a b : ℤ) (ha : 0 ≤ a) (hab : a ≤ b)
    (hb : b ≤ x.length) :
    pySlice x a b = (x.drop a.toNat).take (b - a).toNat := by
  simp only [pySlice]
  rw [if_neg (show ¬ (a < 0) by omega), if_neg (show ¬ (b < 0) by omega)]
  rw [max_eq_right ha, max_eq_right (show (0 : ℤ) ≤ b by omega)]
  rw [min_eq_left (show a ≤ (x.length : ℤ) by omega), min_eq_left hb]
  congr 1
  omega

theorem pySlice_window (x : List ℚ) (s : ℕ) (pre post : ℤ) (hp : 0 ≤ pre)
    (hq : 0 ≤ post) (h1 : pre ≤ (s : ℤ)) (h2 : (s : ℤ) + post ≤ x.length) :
    pySlice x (max 0 ((s : ℤ) - pre)) (min ((x.length : ℤ)) ((s : ℤ) + post))
      = (x.drop ((s : ℤ) - pre).toNat).take (pre + post).toNat := by
  rw [max_eq_right (show (0 : ℤ) ≤ (s : ℤ) - pre by omega), min_eq_right h2]
  rw [pySlice_nonneg x ((s : ℤ) - pre) ((s : ℤ) + post) (by omega) (by omega) h2]
  congr 1
  omega

theorem extractWaveforms_eq_filter (x : List ℚ) (spikes : List ℕ)
    (pre post : ℤ) (hp : 0 ≤ pre) (hq : 0 ≤ post) :
    extractWaveforms x spikes pre post
      = (spikes.filter fun (s : ℕ) =>
          decide (pre ≤ (s : ℤ) ∧ (s : ℤ) + post ≤ x.length)).map
        (fun (s : ℕ) => (x.drop ((s : ℤ) - pre).toNat).take (pre + post).toNat) := by
  induction spikes with
  | nil => rfl
  | cons s ss ih =>
    simp only [extractWaveforms, List.filterMap_cons] at ih ⊢
    rw [List.filter_cons]
    by_cases h : pre ≤ (s : ℤ) ∧ (s : ℤ) + post ≤ x.length
    · have hc : min ((x.length : ℤ)) ((s : ℤ) + post) - max 0 ((s : ℤ) - pre)
          = pre + post := (window_accept x.length s pre post).mpr h
      rw [hc, if_pos rfl, decide_eq_true h, if_pos rfl, List.map_cons,
        pySlice_window x s pre post hp hq h.1 h.2, ih]
    · have hc : ¬ (min ((x.length : ℤ)) ((s : ℤ) + post) - max 0 ((s : ℤ) - pre)
          = pre + post) := fun hc => h ((window_accept x.length s pre post).mp hc)
      rw [if_neg hc, decide_eq_false h, if_neg Bool.false_ne_true, ih]

/-- C4: with `pre_samples = floor(pre_time/1000 * sample_rate)` and
`post_samples = floor(post_time/1000 * sample_rate)` (Python's `int()`
truncation agrees with `floor` for the nonnegative times and rate of the
data model), a spike `s` contributes a row to the Waveform Matrix exactly
when its window `[max(0, s-pre), min(N, s+post))` is unclipped, i.e. has
length `pre_samples + post_samples`; rows keep the ascending spike order,
every row is the corresponding signal slice of length exactly
`pre_samples + post_samples`, rejected spikes contribute nothing and raise
no error (the embedding is total), and the row count never exceeds the spike
count. -/
theorem extractWaveforms_spec (signal : List ℚ) (spikes : List ℕ)
    (pre_time post_time rate : ℚ) (pre post : ℤ)
    (h1 : 0 ≤ pre_time) (h2 : 0 ≤ post_time) (h3 : 0 ≤ rate)
    (hpre : pre = pySamples pre_time rate)
    (hpost : post = pySamples post_time rate) :
    pre = ⌊pre_time / 1000 * rate⌋ ∧
    post = ⌊post_time / 1000 * rate⌋ ∧
    extractWaveforms signal spikes pre post
      = (spikes.filter fun (s : ℕ) =>
          decide (pre ≤ (s : ℤ) ∧ (s : ℤ) + post ≤ signal.length)).map
        (fun (s : ℕ) => (signal.drop ((s : ℤ) - pre).toNat).take (pre + post).toNat) ∧
    (∀ w ∈ extractWaveforms signal spikes pre post,
      (w.length : ℤ) = pre + post) ∧
    (extractWaveforms signal spikes pre post).length ≤ spikes.length := by
  have hq1 : 0 ≤ pre_time / 1000 * rate :=
    mul_nonneg (div_nonneg h1 (by norm_num)) h3
  have hq2 : 0 ≤ post_time / 1000 * rate :=
    mul_nonneg (div_nonneg h2 (by norm_num)) h3
  have hfloor1 : pre = ⌊pre_time / 1000 * rate⌋ := by
    rw [hpre, pySamples, pyInt, if_pos hq1]
  have hfloor2 : post = ⌊post_time / 1000 * rate⌋ := by
    rw [hpost, pySamples, pyInt, if_pos hq2]
  have hp : 0 ≤ pre := by
    rw [hfloor1]; exact Int.floor_nonneg.mpr hq1
  have hq : 0 ≤ post := by
    rw [hfloor2]; exact Int.floor_nonneg.mpr hq2
  have heq := extractWaveforms_eq_filter signal spikes pre post hp hq
  refine ⟨hfloor1, hfloor2, heq, ?_, ?_⟩
  · intro w hw
    rw [heq] at hw
    obtain ⟨s, hs, rfl⟩ := List.mem_map.mp hw
    have hcond := of_decide_eq_true (List.mem_filter.mp hs).2
    simp only [List.length_take, List.length_drop]
    omega
  · rw [heq, List.length_map]
    exact List.length_filter_le _ _

/-- Witness for `extractWaveforms_spec`: signal `[0, 5, 0, 12]`, the single
spike `1`, a 1 kHz sample rate and 1 ms pre/post windows, so
`pre_samples = post_samples = 1` and the spike keeps its two-sample
window. -/
theorem extractWaveforms_spec_witness :
    (0 : ℚ) ≤ 1 ∧ (0 : ℚ) ≤ 1 ∧ (0 : ℚ) ≤ 1000 ∧
    (1 : ℤ) = pySamples 1 1000 ∧
    ((1 : ℤ) = ⌊(1 : ℚ) / 1000 * 1000⌋ ∧
    (1 : ℤ) = ⌊(1 : ℚ) / 1000 * 1000⌋ ∧
    extractWaveforms [0, 5, 0, 12] [1] 1 1
      = (([1] : List ℕ).filter fun (s : ℕ) =>
          decide ((1 : ℤ) ≤ (s : ℤ) ∧ (s : ℤ) + 1 ≤ ([0, 5, 0, 12] : List ℚ).length)).map
        (fun (s : ℕ) => (([0, 5, 0, 12] : List ℚ).drop ((s : ℤ) - 1).toNat).take ((1 : ℤ) + 1).toNat) ∧
    (∀ w ∈ extractWaveforms [0, 5, 0, 12] [1] 1 1, (w.length : ℤ) = 1 + 1) ∧
    (extractWaveforms [0, 5, 0, 12] [1] 1 1).length ≤ ([1] : List ℕ).length) :=
  ⟨by norm_num, by norm_num, by norm_num, by norm_num [pySamples, pyInt],
    extractWaveforms_spec [0, 5, 0, 12] [1] 1 1 1000 1 1 (by norm_num)
      (by norm_num) (by norm_num) (by norm_num [pySamples, pyInt])
      (by norm_num [pySamples, pyInt])⟩

theorem pySlice_self (x : List ℚ) (c : ℤ) : pySlice x c c = [] := by
  simp [pySlice]

/-- C5 (amended): for the nonnegative sample counts the data model allows,
`pre_samples + post_samples ≤ 0` forces `pre_samples = post_samples = 0`;
every in-range spike then passes the length test with an empty window, so
the Waveform Matrix has one empty row per spike (zero columns, hence no
samples) rather than zero rows. -/
theorem extractWaveforms_zero_window_rows_empty (signal : List ℚ)
    (spikes : List ℕ) (pre post : ℤ) (hpre : 0 ≤ pre) (hpost : 0 ≤ post)
    (hsum : pre + post ≤ 0) (hs : ∀ s ∈ spikes, s < signal.length) :
    extractWaveforms signal spikes pre post = spikes.map (fun _ => []) := by
  obtain rfl : pre = 0 := by omega
  obtain rfl : post = 0 := by omega
  induction spikes with
  | nil => rfl
  | cons s ss ih =>
    have hsN : s < signal.length := hs s (List.mem_cons_self s ss)
    simp only [extractWaveforms, List.filterMap_cons] at ih ⊢
    have hc : min ((signal.length : ℤ)) ((s : ℤ) + 0) - max 0 ((s : ℤ) - 0)
        = 0 + 0 := by
      simp only [min_def, max_def]
      split_ifs <;> omega
    rw [hc, if_pos rfl]
    have hmax : max 0 ((s : ℤ) - 0) = (s : ℤ) := by omega
    have hmin : min ((signal.length : ℤ)) ((s : ℤ) + 0) = (s : ℤ) := by omega
    rw [hmax, hmin, pySlice_self, List.map_cons]
    exact congrArg _ (ih fun u hu => hs u (List.mem_cons_of_mem s hu))

/-- Witness for `extractWaveforms_zero_window_rows_empty` at signal
`[0, 5, 0, 12]` with the detected spike `1` and zero-length windows. -/
theorem extractWaveforms_zero_window_rows_empty_witness :
    (0 : ℤ) ≤ 0 ∧ (0 : ℤ) + 0 ≤ 0 ∧
    (∀ s ∈ ([1] : List ℕ), s < ([0, 5, 0, 12] : List ℚ).length) ∧
    extractWaveforms [0, 5, 0, 12] [1] 0 0 = ([1] : List ℕ).map (fun _ => []) :=
  ⟨by decide, by decide, by decide,
    extractWaveforms_zero_window_rows_empty [0, 5, 0, 12] [1] 0 0
      (by decide) (by decide) (by decide) (by decide)⟩

/-- Counterexample to C5 as stated: on the signal `[0, 5, 0, 12]` (band
`[4, 6]`, one detected spike) with `pre_samples = post_samples = 0`, the
Waveform Matrix is `[[]]` — one (empty) row, not zero rows. -/
theorem extractWaveforms_zero_window_counterexample :
    extractWaveforms [0, 5, 0, 12] (find_peaks [0, 5, 0, 12] 4 6) 0 0 = [[]] ∧
    (extractWaveforms [0, 5, 0, 12] (find_peaks [0, 5, 0, 12] 4 6) 0 0).length ≠ 0 := by
  decide

theorem pipeline_view_congr {α : Type} (amp : List (List ℚ)) (t1 t2 : List ℚ)
    (rate : ℚ) (channel_index : ℕ) (r1 r2 pre_time post_time : ℚ)
    (n_components : ℕ) (f g : PipeOut → α)
    (hfg : ∀ sig al wf spk m minh maxh,
      f ⟨sig, t1, al, wf, spk, m, r1 * m, minh, maxh⟩
        = g ⟨sig, t2, al, wf, spk, m, r2 * m, minh, maxh⟩) :
    Except.map f (extract_analyze_and_plot_spikes ⟨some amp, some t1, some rate⟩
        channel_index r1 pre_time post_time n_components)
      = Except.map g (extract_analyze_and_plot_spikes ⟨some amp, some t2, some rate⟩
        channel_index r2 pre_time post_time n_components) := by
  cases hm : npMax (amp.getD channel_index []) with
  | none =>
    simp only [extract_analyze_and_plot_spikes, thresholdEstimator, hm]
    rfl
  | some m =>
    simp only [extract_analyze_and_plot_spikes, thresholdEstimator, hm]
    cases hl : linspace (-pre_time) post_time
        (pySamples pre_time rate + pySamples post_time rate) with
    | none => rfl
    | some al =>
      cases hp : pcaCheck (extractWaveforms (amp.getD channel_index [])
          (find_peaks (amp.getD channel_index []) ((1 / 3) * m) ((1 / 2) * m))
          (pySamples pre_time rate) (pySamples post_time rate)) n_components with
      | error e => rfl
      | ok u =>
        simp only [Except.map]
        exact congrArg _ (hfg _ _ _ _ _ _ _)

/-- C2: the threshold ratio influences only the reported threshold value.
For any two ratio values (in particular any two in `(0, 1]`) the pipeline
yields the same spike indices, waveform matrix, aligned time axis and
detection band, and — since the feature reduction is a deterministic
function of the waveform matrix and `n_components` — the same feature matrix
and explained variance ratios, stated here for an arbitrary reducer
`red`. -/
theorem pipeline_ignores_threshold_frac (result : RhdResult)
    (channel_index : ℕ) (r1 r2 pre_time post_time : ℚ) (n_components : ℕ) :
    Except.map detectionView (extract_analyze_and_plot_spikes result
        channel_index r1 pre_time post_time n_components)
      = Except.map detectionView (extract_analyze_and_plot_spikes result
        channel_index r2 pre_time post_time n_components) ∧
    ∀ red : List (List ℚ) → ℕ → List (List ℚ) × List ℚ,
      Except.map (fun o => red o.spike_waveforms n_components)
          (extract_analyze_and_plot_spikes result channel_index r1 pre_time
            post_time n_components)
        = Except.map (fun o => red o.spike_waveforms n_components)
          (extract_analyze_and_plot_spikes result channel_index r2 pre_time
            post_time n_components) := by
  obtain ⟨amp, t, rate⟩ := result
  cases amp with
  | none => exact ⟨rfl, fun red => rfl⟩
  | some amp =>
    cases t with
    | none => exact ⟨rfl, fun red => rfl⟩
    | some t =>
      cases rate with
      | none => exact ⟨rfl, fun red => rfl⟩
      | some rate =>
        exact ⟨pipeline_view_congr amp t t rate channel_index r1 r2 pre_time
            post_time n_components _ _ (fun sig al wf spk m minh maxh => rfl),
          fun red => pipeline_view_congr amp t t rate channel_index r1 r2
            pre_time post_time n_components _ _
            (fun sig al wf spk m minh maxh => rfl)⟩

/-- C10: the time vector is never read by any computation stage.  For any two
time vectors the pipeline yields identical results apart from the `time`
field, which is the input time vector passed through unchanged; the feature
reduction, a deterministic function of the waveform matrix and
`n_components`, is likewise unaffected, stated for an arbitrary reducer
`red`. -/
theorem pipeline_ignores_time_vector (amp : Option (List (List ℚ)))
    (rate : Option ℚ) (t1 t2 : List ℚ) (channel_index : ℕ)
    (frac pre_time post_time : ℚ) (n_components : ℕ) :
    Except.map dropTime (extract_analyze_and_plot_spikes ⟨amp, some t1, rate⟩
        channel_index frac pre_time post_time n_components)
      = Except.map dropTime (extract_analyze_and_plot_spikes ⟨amp, some t2, rate⟩
        channel_index frac pre_time post_time n_components) ∧
    Except.map (fun o => o.time) (extract_analyze_and_plot_spikes
        ⟨amp, some t1, rate⟩ channel_index frac pre_time post_time n_components)
      = Except.map (fun _ => t1) (extract_analyze_and_plot_spikes
        ⟨amp, some t1, rate⟩ channel_index frac pre_time post_time n_components) ∧
    Except.map (fun o => o.time) (extract_analyze_and_plot_spikes
        ⟨amp, some t2, rate⟩ channel_index frac pre_time post_time n_components)
      = Except.map (fun _ => t2) (extract_analyze_and_plot_spikes
        ⟨amp, some t2, rate⟩ channel_index frac pre_time post_time n_components) ∧
    ∀ red : List (List ℚ) → ℕ → List (List ℚ) × List ℚ,
      Except.map (fun o => red o.spike_waveforms n_components)
          (extract_analyze_and_plot_spikes ⟨amp, some t1, rate⟩ channel_index
            frac pre_time post_time n_components)
        = Except.map (fun o => red o.spike_waveforms n_components)
          (extract_analyze_and_plot_spikes ⟨amp, some t2, rate⟩ channel_index
            frac pre_time post_time n_components) := by
  cases amp with
  | none => exact ⟨rfl, rfl, rfl, fun red => rfl⟩
  | some amp =>
    cases rate with
    | none => exact ⟨rfl, rfl, rfl, fun red => rfl⟩
    | some rate =>
      exact ⟨pipeline_view_congr amp t1 t2 rate channel_index frac frac
          pre_time post_time n_components _ _
          (fun sig al wf spk m minh maxh => rfl),
        pipeline_view_congr amp t1 t1 rate channel_index frac frac
          pre_time post_time n_components _ _
          (fun sig al wf spk m minh maxh => rfl),
        pipeline_view_congr amp t2 t2 rate channel_index frac frac
          pre_time post_time n_components _ _
          (fun sig al wf spk m minh maxh => rfl),
        fun red => pipeline_view_congr amp t1 t2 rate channel_index frac frac
          pre_time post_time n_components _ _
          (fun sig al wf spk m minh maxh => rfl)⟩

end SpikePipeline
